import Mathlib

/-!
Shallow embedding of the `topn` program (`top_n.go`): a bounded top-N
selector over a `container/heap` min-heap of machine integers, fed by
line-by-line `strconv.Atoi` parsing, drained and printed in descending
order.  The heap backing store `IntHeap []int` is embedded as `List Int`;
indices are `Nat`; a Go runtime panic (index out of range) is embedded as
`Option.none`.
-/

namespace TopN

/-- Element access `h[i]` on the heap slice; out-of-range reads are never
relied upon except where the Go code would panic, which is modelled
separately. -/
def getE (l : List Int) (i : Nat) : Int := l.getD i 0

/-- Go `h.Swap(i, j)`: `h[i], h[j] = h[j], h[i]`. -/
def swap (l : List Int) (i j : Nat) : List Int :=
  (l.set i (getE l j)).set j (getE l i)

/-- The smaller-child index chosen by `container/heap`'s `down`:
`j = j1`; `if j2 := j1 + 1; j2 < n && h.Less(j2, j1) { j = j2 }`. -/
def downChild (l : List Int) (i n : Nat) : Nat :=
  if 2*i+2 < n ∧ getE l (2*i+2) < getE l (2*i+1) then 2*i+2 else 2*i+1

/-- One unrolling layer of `container/heap`'s `down(h, i, n)` loop,
specialised to `IntHeap`'s `Less(i, j) = h[i] < h[j]`.  The loop index
strictly increases below `n`, so any fuel of at least `n - i` steps
computes the loop's fixpoint; structural recursion on the fuel keeps the
definition kernel-reducible. -/
def downAux : Nat → List Int → Nat → Nat → List Int
  | 0, l, _, _ => l
  | fuel+1, l, i, n =>
    if 2*i+1 ≥ n then l
    else if getE l (downChild l i n) < getE l i then
      downAux fuel (swap l i (downChild l i n)) (downChild l i n) n
    else l

/-- Embedding of `container/heap`'s `down(h, i, n)` (the sift-down loop). -/
def down (l : List Int) (i n : Nat) : List Int := downAux (n - i) l i n

/-- One unrolling layer of `container/heap`'s `up(h, j)` loop:
`i := (j-1)/2; if i == j || !h.Less(j, i) break; h.Swap(i, j); j = i`.
The loop index strictly decreases, so fuel `j + 1` computes the loop's
fixpoint. -/
def upAux : Nat → List Int → Nat → List Int
  | 0, l, _ => l
  | fuel+1, l, j =>
    if (j-1)/2 = j ∨ ¬ getE l j < getE l ((j-1)/2) then l
    else upAux fuel (swap l ((j-1)/2) j) ((j-1)/2)

/-- Embedding of `container/heap`'s `up(h, j)` (the sift-up loop). -/
def up (l : List Int) (j : Nat) : List Int := upAux (j+1) l j

/-- Helper loop of `heap.Init`: runs `down(h, i, n)` for
`i = k-1, k-2, ..., 0`. -/
def initAux (l : List Int) (n : Nat) : Nat → List Int
  | 0 => l
  | k+1 => initAux (down l k n) n k

/-- Embedding of `heap.Init(h)`: `for i := n/2 - 1; i >= 0; i--` run
`down(h, i, n)`. -/
def heapInit (l : List Int) : List Int := initAux l l.length (l.length / 2)

/-- Embedding of `heap.Push(h, x)`: `IntHeap.Push` appends, then
`up(h, h.Len()-1)`. -/
def heapPush (l : List Int) (x : Int) : List Int := up (l ++ [x]) l.length

/-- Embedding of `heap.Pop(h)`: `n := h.Len()-1; h.Swap(0, n);
down(h, 0, n)`, then `IntHeap.Pop` removes and returns the last slot.
On an empty heap Go's `Swap(0, -1)` panics, embedded as `none`. -/
def heapPop (l : List Int) : Option (Int × List Int) :=
  if l.length = 0 then none
  else
    some (getE (down (swap l 0 (l.length - 1)) 0 (l.length - 1)) (l.length - 1),
      (down (swap l 0 (l.length - 1)) 0 (l.length - 1)).take (l.length - 1))

/-- Embedding of `TopHeap.ReplaceMin(value)`: `heap.Pop(h); heap.Push(h, value)`. -/
def replaceMin (l : List Int) (v : Int) : Option (List Int) :=
  match heapPop l with
  | none => none
  | some p => some (heapPush p.2 v)

/-- Digit run of `strconv.Atoi`: every character must be a decimal digit
and at least one digit must be present; accumulates the decimal value. -/
def parseDigits (cs : List Char) : Option Nat :=
  match cs with
  | [] => none
  | _ =>
    cs.foldl (fun acc c =>
      match acc with
      | none => none
      | some a => if c.isDigit then some (10 * a + (c.toNat - 48)) else none)
      (some 0)

/-- Signed decimal reading of a line, before `strconv`'s 64-bit range
check: optional leading `+`/`-`, then one or more ASCII digits. -/
def parseSigned (s : String) : Option Int :=
  match s.toList with
  | [] => none
  | c :: cs =>
    if c = '-' then (parseDigits cs).map (fun d => -(d : Int))
    else if c = '+' then (parseDigits cs).map (fun d => (d : Int))
    else (parseDigits (c :: cs)).map (fun d => (d : Int))

/-- Embedding of `strconv.Atoi` on a 64-bit platform: signed decimal
syntax plus the `int64` range check; any syntax or range error is `none`
(the caller only tests `err != nil`). -/
def atoi (s : String) : Option Int :=
  match parseSigned s with
  | none => none
  | some v => if -(2^63) ≤ v ∧ v ≤ 2^63 - 1 then some v else none

/-- Go's `int(*nFlag)` conversion in the fill test `Len() < int(*nFlag)`:
the 64-bit unsigned flag value is reinterpreted as a signed 64-bit
integer, so values below `2^63` are unchanged and larger ones wrap to a
negative number (`flag.Uint` only produces values below `2^64`, where
the `% 2^64` is the identity; beyond that the result stays negative). -/
def intOfUint (n : Nat) : Int :=
  if n < 2^63 then (n : Int) else (n : Int) % 2^64 - 2^64

/-- Loop body of `buildHeap` in `top_n.go` for one admitted value: fill
while `Len() < int(*nFlag)` (for flag values at or above `2^63` the
converted bound is negative and the fill never happens); otherwise
compare with `IntHeap[0]` (a panic when the heap is empty, e.g. when
`n = 0`) and either skip or `ReplaceMin`. -/
def offer (n : Nat) (hp : List Int) (v : Int) : Option (List Int) :=
  if (hp.length : Int) < intOfUint n then some (heapPush hp v)
  else if hp.length = 0 then none
  else if v < getE hp 0 then some hp
  else replaceMin hp v

/-- Embedding of `buildHeap` from `top_n.go`: `NewTopHeap` returns an
empty heap, `heap.Init` runs on it, then each scanned line is parsed
with `Atoi` (parse failures are skipped) and offered to the heap. -/
def buildHeap (n : Nat) (lines : List String) : Option (List Int) :=
  lines.foldlM (fun hp line =>
    match atoi line with
    | none => some hp
    | some v => offer n hp v) (heapInit [])

/-- Loop of `takeTopN`: `for i := 0; i < n && topHeap.Len() > 0; i++`
append `heap.Pop(topHeap)`. -/
def takeAux : Nat → List Int → List Int
  | 0, _ => []
  | n+1, hp =>
    match heapPop hp with
    | none => []
    | some p => p.1 :: takeAux n p.2

/-- Embedding of `takeTopN` from `top_n.go`: empty heap yields `[]`,
otherwise pop up to `n` elements. -/
def takeTopN (hp : List Int) (n : Nat) : List Int :=
  if hp.length = 0 then [] else takeAux n hp

/-- Print loop segment of `printNumbers`: prints indices `i, i-1, ..., 0`
of `numbers`, with `"%d "` for `i > 0` and `"%d"` at `i = 0`. -/
def printFrom (numbers : List Int) : Nat → String
  | 0 => toString (getE numbers 0)
  | i+1 => toString (getE numbers (i+1)) ++ " " ++ printFrom numbers i

/-- Embedding of `printNumbers`: the loop from `len-1` down to `0` never
runs on an empty slice; `fmt.Println()` appends the final newline.  The
returned string is the program's stdout. -/
def printNumbers (numbers : List Int) : String :=
  (if numbers.length = 0 then "" else printFrom numbers (numbers.length - 1)) ++ "\n"

/-- Composition run by `main` after flag/scanner setup: build the heap
from the input lines, take the top `n`, print.  `none` is a run that
panics (crashes before printing). -/
def runProgram (n : Nat) (lines : List String) : Option String :=
  match buildHeap n lines with
  | none => none
  | some hp => some (printNumbers (takeTopN hp n))

/-- Loop body of `buildHeap` in the repository's guarded copy
(`src/unnamed/part_000`, first file): the minimum is read through
`Minimum()`, whose error on an empty heap makes the line be skipped
instead of panicking; the fill test carries the same `int(*nFlag)`
conversion as `top_n.go` (part_000 line 115). -/
def offerGuarded (n : Nat) (hp : List Int) (v : Int) : Option (List Int) :=
  if (hp.length : Int) < intOfUint n then some (heapPush hp v)
  else if hp.length = 0 then some hp
  else if v < getE hp 0 then some hp
  else replaceMin hp v

/-- Embedding of `buildHeap` from the guarded copy: an explicit
`if *nFlag == 0 { return topHeap, nil }` precedes the scan loop. -/
def buildHeapGuarded (n : Nat) (lines : List String) : Option (List Int) :=
  if n = 0 then some (heapInit [])
  else
    lines.foldlM (fun hp line =>
      match atoi line with
      | none => some hp
      | some v => offerGuarded n hp v) (heapInit [])

/-- Full run of the guarded copy of the program. -/
def runProgramGuarded (n : Nat) (lines : List String) : Option String :=
  match buildHeapGuarded n lines with
  | none => none
  | some hp => some (printNumbers (takeTopN hp n))

/-- Heap order property of `container/heap` restricted to the first `n`
slots: every non-root node within the region is at least its parent. -/
def HeapRegion (l : List Int) (n : Nat) : Prop :=
  ∀ c, c < n → 0 < c → getE l ((c-1)/2) ≤ getE l c

/-- The min-heap invariant on the whole backing slice. -/
def IsHeap (l : List Int) : Prop := HeapRegion l l.length

instance (l : List Int) (n : Nat) : Decidable (HeapRegion l n) :=
  Nat.decidableBallLT n _

instance (l : List Int) : Decidable (IsHeap l) :=
  inferInstanceAs (Decidable (HeapRegion l l.length))

/-! Basic facts about `getE` and `swap`. -/

theorem getE_nil (i : Nat) : getE [] i = 0 := by
  simp [getE]

theorem length_swap (l : List Int) (i j : Nat) : (swap l i j).length = l.length := by
  simp [swap]

theorem getE_set (l : List Int) (i k : Nat) (x : Int) :
    getE (l.set i x) k = if i = k ∧ i < l.length then x else getE l k := by
  simp only [getE, List.getD_eq_getElem?_getD, List.getElem?_set]
  rcases eq_or_ne i k with rfl | h1
  · by_cases h2 : i < l.length
    · simp [h2]
    · simp [h2, List.getElem?_eq_none (Nat.le_of_not_lt h2)]
  · simp [h1]

theorem getE_swap (l : List Int) (i j k : Nat) (hi : i < l.length) (hj : j < l.length) :
    getE (swap l i j) k =
      if k = j then getE l i else if k = i then getE l j else getE l k := by
  simp only [swap, getE_set, List.length_set]
  split_ifs <;> first | rfl | omega

theorem count_swap (l : List Int) (i j : Nat) (hi : i < l.length) (hj : j < l.length)
    (y : Int) : (swap l i j).count y = l.count y := by
  have hj2 : j < (l.set i (getE l j)).length := by simpa using hj
  have hset : (l.set i (getE l j))[j] = l[j] := by
    rw [List.getElem_set]
    split
    · next h =>
      show getE l j = l[j]
      exact List.getD_eq_getElem l 0 hj
    · rfl
  simp only [swap]
  rw [List.count_set _ _ _ _ hj2, List.count_set _ _ _ _ hi, hset]
  have h1 : (if (l[i] == y) = true then 1 else 0) ≤ l.count y := by
    split
    · next h => exact List.count_pos_iff.mpr (by rw [← eq_of_beq h]; exact List.getElem_mem hi)
    · exact Nat.zero_le _
  have h2 : getE l i = l[i] := List.getD_eq_getElem l 0 hi
  have h3 : getE l j = l[j] := List.getD_eq_getElem l 0 hj
  rw [h2, h3]
  generalize hA : (if (l[i] == y) = true then 1 else 0) = A at h1 ⊢
  generalize hB : (if (l[j] == y) = true then 1 else 0) = B
  omega

theorem perm_swap (l : List Int) (i j : Nat) (hi : i < l.length) (hj : j < l.length) :
    (swap l i j).Perm l := by
  rw [List.perm_iff_count]
  exact fun y => count_swap l i j hi hj y

theorem getE_append_lt (l l2 : List Int) (k : Nat) (h : k < l.length) :
    getE (l ++ l2) k = getE l k :=
  List.getD_append l l2 0 k h

theorem getE_append_self (l : List Int) (x : Int) :
    getE (l ++ [x]) l.length = x := by
  simp [getE, List.getD_append_right l [x] 0 l.length (Nat.le_refl _)]

theorem getE_take (l : List Int) (n k : Nat) (h : k < n) :
    getE (l.take n) k = getE l k := by
  simp [getE, List.getD_eq_getElem?_getD, List.getElem?_take, h]

theorem fill_iff (n len : Nat) :
    ((len : Int) < intOfUint n) ↔ (n < 2^63 ∧ len < n) := by
  unfold intOfUint
  split
  · next h =>
    constructor
    · intro hlt
      exact ⟨h, by exact_mod_cast hlt⟩
    · intro hc
      exact_mod_cast hc.2
  · next h =>
    constructor
    · intro hlt
      exfalso
      have h1 : (0:Int) ≤ (n:Int) % 2^64 := Int.emod_nonneg _ (by norm_num)
      have h2 : (n:Int) % 2^64 < 2^64 := Int.emod_lt_of_pos _ (by norm_num)
      have h3 : (0:Int) ≤ (len:Int) := Int.ofNat_nonneg len
      generalize hm : (n:Int) % 2^64 = m at h1 h2 hlt
      generalize hc : (2:Int)^64 = c at h2 hlt
      omega
    · intro hc
      exact absurd hc.1 h

/-! Correctness of the sift-down loop `down`. -/

theorem downChild_bounds (l : List Int) (i n : Nat) (h : 2*i+1 < n) :
    i < downChild l i n ∧ downChild l i n < n ∧
      (downChild l i n = 2*i+1 ∨ downChild l i n = 2*i+2) := by
  unfold downChild
  split <;> omega

theorem downChild_min (l : List Int) (i n : Nat) (h : 2*i+1 < n) :
    ∀ c, c < n → (c-1)/2 = i → 0 < c → getE l (downChild l i n) ≤ getE l c := by
  intro c hc hpar hpos
  have hcc : c = 2*i+1 ∨ c = 2*i+2 := by omega
  unfold downChild
  split
  · next hsp =>
    rcases hcc with rfl | rfl
    · exact le_of_lt hsp.2
    · exact le_refl _
  · next hsp =>
    rcases hcc with rfl | rfl
    · exact le_refl _
    · have : ¬ getE l (2*i+2) < getE l (2*i+1) := fun hlt => hsp ⟨by omega, hlt⟩
      exact Int.not_lt.mp this

theorem length_downAux (fuel : Nat) :
    ∀ (l : List Int) (i n : Nat), (downAux fuel l i n).length = l.length := by
  induction fuel with
  | zero => intro l i n; rfl
  | succ fuel ih =>
    intro l i n
    simp only [downAux]
    split
    · rfl
    · split
      · rw [ih, length_swap]
      · rfl

theorem length_down (l : List Int) (i n : Nat) : (down l i n).length = l.length :=
  length_downAux (n - i) l i n

theorem count_downAux (fuel : Nat) :
    ∀ (l : List Int) (i n : Nat), n ≤ l.length →
      ∀ y, (downAux fuel l i n).count y = l.count y := by
  induction fuel with
  | zero => intro l i n hn y; rfl
  | succ fuel ih =>
    intro l i n hn y
    simp only [downAux]
    split
    · rfl
    · next h1 =>
      split
      · next h2 =>
        have hb := downChild_bounds l i n (by omega)
        have hi : i < l.length := by omega
        have hj : downChild l i n < l.length := by omega
        rw [ih _ _ _ (by rw [length_swap]; exact hn) y,
          count_swap l i (downChild l i n) hi hj]
      · rfl

theorem count_down (l : List Int) (i n : Nat) (hn : n ≤ l.length) (y : Int) :
    (down l i n).count y = l.count y :=
  count_downAux (n - i) l i n hn y

theorem getE_downAux_ge (fuel : Nat) :
    ∀ (l : List Int) (i n k : Nat), n ≤ l.length → n ≤ k →
      getE (downAux fuel l i n) k = getE l k := by
  induction fuel with
  | zero => intro l i n k hn hk; rfl
  | succ fuel ih =>
    intro l i n k hn hk
    simp only [downAux]
    split
    · rfl
    · next h1 =>
      split
      · next h2 =>
        have hb := downChild_bounds l i n (by omega)
        have hi : i < l.length := by omega
        have hj : downChild l i n < l.length := by omega
        rw [ih _ _ _ _ (by rw [length_swap]; exact hn) hk,
          getE_swap l i (downChild l i n) k hi hj, if_neg (by omega), if_neg (by omega)]
      · rfl

theorem getE_down_ge (l : List Int) (i n k : Nat) (hn : n ≤ l.length) (hk : n ≤ k) :
    getE (down l i n) k = getE l k :=
  getE_downAux_ge (n - i) l i n k hn hk

/-- Invariant of the sift-down loop: within the region `n`, every
parent-child edge holds except possibly the edges out of `hole`, and if
the hole is not the root its children are already at least the hole's
parent. -/
def DownInv (l : List Int) (hole n : Nat) : Prop :=
  n ≤ l.length ∧
  (∀ c, c < n → 0 < c → (c-1)/2 ≠ hole → getE l ((c-1)/2) ≤ getE l c) ∧
  (0 < hole → ∀ c, c < n → (c-1)/2 = hole → getE l ((hole-1)/2) ≤ getE l c)

theorem downInv_swap (l : List Int) (i n j : Nat) (inv : DownInv l i n)
    (h1 : 2*i+1 < n) (hjeq : j = downChild l i n) (h2 : getE l j < getE l i) :
    DownInv (swap l i j) j n := by
  have hb := downChild_bounds l i n h1
  rw [← hjeq] at hb
  have hmin := downChild_min l i n h1
  rw [← hjeq] at hmin
  have hn := inv.1
  have hi : i < l.length := by omega
  have hjl : j < l.length := by omega
  have sj : getE (swap l i j) j = getE l i := by
    rw [getE_swap l i j j hi hjl, if_pos rfl]
  have si : getE (swap l i j) i = getE l j := by
    rw [getE_swap l i j i hi hjl, if_neg (by omega), if_pos rfl]
  have sk : ∀ k, k ≠ i → k ≠ j → getE (swap l i j) k = getE l k := by
    intro k hk1 hk2
    rw [getE_swap l i j k hi hjl, if_neg hk2, if_neg hk1]
  refine ⟨by rw [length_swap]; exact inv.1, ?_, ?_⟩
  · intro c hc hpos hpar
    by_cases hcj : c = j
    · have hpi : (c-1)/2 = i := by omega
      rw [hpi, si, hcj, sj]
      exact le_of_lt h2
    · by_cases hci : c = i
      · have hp2 : (c-1)/2 ≠ i := by omega
        have hp3 : (c-1)/2 ≠ j := hpar
        rw [sk _ hp2 hp3, hci, si]
        exact inv.2.2 (by omega) j (by omega) (by omega)
      · by_cases hpari : (c-1)/2 = i
        · rw [hpari, si, sk c hci hcj]
          exact hmin c hc hpari hpos
        · rw [sk c hci hcj, sk ((c-1)/2) hpari hpar]
          exact inv.2.1 c hc hpos hpari
  · intro hjpos c hc hpar
    have hji : (j-1)/2 = i := by omega
    have hcbig : 2*j+1 ≤ c := by omega
    rw [hji, si, sk c (by omega) (by omega)]
    have hgoal := inv.2.1 c hc (by omega) (by omega)
    rw [hpar] at hgoal
    exact hgoal

theorem downAux_heapRegion (fuel : Nat) :
    ∀ (l : List Int) (i n : Nat), n - i ≤ fuel → DownInv l i n →
      HeapRegion (downAux fuel l i n) n := by
  induction fuel with
  | zero =>
    intro l i n hf inv c hc hpos
    by_cases hpar : (c-1)/2 = i
    · omega
    · exact inv.2.1 c hc hpos hpar
  | succ fuel ih =>
    intro l i n hf inv
    simp only [downAux]
    split
    · next h =>
      intro c hc hpos
      by_cases hpar : (c-1)/2 = i
      · omega
      · exact inv.2.1 c hc hpos hpar
    · next h1 =>
      split
      · next h2 =>
        have hb := downChild_bounds l i n (by omega)
        exact ih _ _ _ (by omega) (downInv_swap l i n _ inv (by omega) rfl h2)
      · next h2 =>
        intro c hc hpos
        by_cases hpar : (c-1)/2 = i
        · rw [hpar]
          exact le_trans (Int.not_lt.mp h2)
            (downChild_min l i n (by omega) c hc hpar hpos)
        · exact inv.2.1 c hc hpos hpar

theorem down_heapRegion (l : List Int) (i n : Nat) (inv : DownInv l i n) :
    HeapRegion (down l i n) n :=
  downAux_heapRegion (n - i) l i n (le_refl _) inv

/-! Correctness of the sift-up loop `up`. -/

/-- Invariant of the sift-up loop: every parent-child edge holds except
possibly the edge into `hole`, and the children of `hole` are already at
least the hole's parent. -/
def UpInv (l : List Int) (hole : Nat) : Prop :=
  hole < l.length ∧
  (∀ c, c < l.length → 0 < c → c ≠ hole → getE l ((c-1)/2) ≤ getE l c) ∧
  (∀ c, c < l.length → 0 < c → (c-1)/2 = hole → getE l ((hole-1)/2) ≤ getE l c)

theorem length_upAux (fuel : Nat) :
    ∀ (l : List Int) (j : Nat), (upAux fuel l j).length = l.length := by
  induction fuel with
  | zero => intro l j; rfl
  | succ fuel ih =>
    intro l j
    simp only [upAux]
    split
    · rfl
    · rw [ih, length_swap]

theorem length_up (l : List Int) (j : Nat) : (up l j).length = l.length :=
  length_upAux (j+1) l j

theorem count_upAux (fuel : Nat) :
    ∀ (l : List Int) (j : Nat), j < l.length →
      ∀ y, (upAux fuel l j).count y = l.count y := by
  induction fuel with
  | zero => intro l j hj y; rfl
  | succ fuel ih =>
    intro l j hj y
    simp only [upAux]
    split
    · rfl
    · next h =>
      push_neg at h
      have hp : (j-1)/2 < l.length := by omega
      rw [ih _ _ (by rw [length_swap]; exact hp) y, count_swap l ((j-1)/2) j hp hj]

theorem count_up (l : List Int) (j : Nat) (hj : j < l.length) (y : Int) :
    (up l j).count y = l.count y :=
  count_upAux (j+1) l j hj y

theorem perm_up (l : List Int) (j : Nat) (hj : j < l.length) : (up l j).Perm l := by
  rw [List.perm_iff_count]
  exact fun y => count_up l j hj y

theorem upInv_swap (l : List Int) (j p : Nat) (inv : UpInv l j) (hpeq : p = (j-1)/2)
    (hne : p ≠ j) (hlt : getE l j < getE l p) : UpInv (swap l p j) p := by
  have hj : j < l.length := inv.1
  have hpj : p < j := by omega
  have hpl : p < l.length := by omega
  have h22 := inv.2.2
  rw [← hpeq] at h22
  have sp : getE (swap l p j) p = getE l j := by
    rw [getE_swap l p j p hpl hj, if_neg (by omega), if_pos rfl]
  have sj2 : getE (swap l p j) j = getE l p := by
    rw [getE_swap l p j j hpl hj, if_pos rfl]
  have sk : ∀ k, k ≠ p → k ≠ j → getE (swap l p j) k = getE l k := by
    intro k hk1 hk2
    rw [getE_swap l p j k hpl hj, if_neg hk2, if_neg hk1]
  refine ⟨by rw [length_swap]; exact hpl, ?_, ?_⟩
  · intro c hc hpos hcp
    rw [length_swap] at hc
    by_cases hcj : c = j
    · rw [show (c-1)/2 = p by omega, sp, hcj, sj2]
      exact le_of_lt hlt
    · by_cases hparj : (c-1)/2 = j
      · rw [hparj, sj2, sk c hcp hcj]
        exact h22 c hc hpos hparj
      · by_cases hparp : (c-1)/2 = p
        · rw [hparp, sp, sk c hcp hcj]
          have h1 := inv.2.1 c hc hpos hcj
          rw [hparp] at h1
          exact le_trans (le_of_lt hlt) h1
        · rw [sk c hcp hcj, sk ((c-1)/2) hparp hparj]
          exact inv.2.1 c hc hpos hcj
  · intro c hc hpos hpar
    rw [length_swap] at hc
    have hcgt : 2*p+1 ≤ c := by omega
    by_cases hp0 : p = 0
    · rw [show (p-1)/2 = p by omega, sp]
      by_cases hcj : c = j
      · rw [hcj, sj2]
        exact le_of_lt hlt
      · rw [sk c (by omega) hcj]
        have h1 := inv.2.1 c hc hpos hcj
        rw [hpar] at h1
        exact le_trans (le_of_lt hlt) h1
    · rw [sk ((p-1)/2) (by omega) (by omega)]
      by_cases hcj : c = j
      · rw [hcj, sj2]
        have h1 := inv.2.1 p hpl (by omega) (by omega)
        exact h1
      · rw [sk c (by omega) hcj]
        have h1 := inv.2.1 c hc hpos hcj
        rw [hpar] at h1
        have h2 := inv.2.1 p hpl (by omega) (by omega)
        exact le_trans h2 h1

theorem upAux_isHeap (fuel : Nat) :
    ∀ (l : List Int) (j : Nat), j < fuel → UpInv l j → IsHeap (upAux fuel l j) := by
  induction fuel with
  | zero =>
    intro l j hj
    omega
  | succ fuel ih =>
    intro l j hj inv
    simp only [upAux]
    split
    · next h =>
      intro c hc hpos
      by_cases hcj : c = j
      · rcases h with h0 | hge
        · omega
        · rw [hcj]
          exact Int.not_lt.mp hge
      · exact inv.2.1 c hc hpos hcj
    · next h =>
      push_neg at h
      exact ih _ _ (by omega) (upInv_swap l j _ inv rfl h.1 h.2)

theorem up_isHeap (l : List Int) (j : Nat) (inv : UpInv l j) : IsHeap (up l j) :=
  upAux_isHeap (j+1) l j (by omega) inv

/-! Specifications of the composed heap operations. -/

theorem length_heapPush (l : List Int) (x : Int) :
    (heapPush l x).length = l.length + 1 := by
  simp [heapPush, length_up]

theorem perm_heapPush (l : List Int) (x : Int) : (heapPush l x).Perm (x :: l) := by
  unfold heapPush
  exact (perm_up (l ++ [x]) l.length (by simp)).trans (List.perm_append_singleton x l)

theorem isHeap_heapPush (l : List Int) (x : Int) (h : IsHeap l) :
    IsHeap (heapPush l x) := by
  apply up_isHeap
  refine ⟨by simp, ?_, ?_⟩
  · intro c hc hpos hcl
    simp only [List.length_append, List.length_cons, List.length_nil] at hc
    have hc2 : c < l.length := by omega
    rw [getE_append_lt l [x] c hc2, getE_append_lt l [x] ((c-1)/2) (by omega)]
    exact h c hc2 hpos
  · intro c hc hpos hpar
    simp only [List.length_append, List.length_cons, List.length_nil] at hc
    omega

theorem root_min (l : List Int) (h : IsHeap l) :
    ∀ i, i < l.length → getE l 0 ≤ getE l i := by
  intro i
  induction i using Nat.strong_induction_on with
  | _ i ih =>
    intro hi
    by_cases h0 : i = 0
    · rw [h0]
    · exact le_trans (ih ((i-1)/2) (by omega) (by omega)) (h i hi (by omega))

theorem root_min_mem (l : List Int) (h : IsHeap l) : ∀ y ∈ l, getE l 0 ≤ y := by
  intro y hy
  obtain ⟨i, hi, hyi⟩ := List.getElem_of_mem hy
  rw [← hyi, ← List.getD_eq_getElem l 0 hi]
  exact root_min l h i hi

theorem heapPop_spec (l : List Int) (h : IsHeap l) (hne : l ≠ []) :
    ∃ rest, heapPop l = some (getE l 0, rest) ∧ IsHeap rest ∧
      rest.length = l.length - 1 ∧ (getE l 0 :: rest).Perm l := by
  have hlen : 0 < l.length := List.length_pos.mpr hne
  have hsl : (swap l 0 (l.length - 1)).length = l.length := length_swap _ _ _
  have hdl : (down (swap l 0 (l.length - 1)) 0 (l.length - 1)).length = l.length := by
    rw [length_down, hsl]
  have hval : getE (down (swap l 0 (l.length - 1)) 0 (l.length - 1)) (l.length - 1) =
      getE l 0 := by
    rw [getE_down_ge _ 0 (l.length - 1) (l.length - 1) (by omega) (le_refl _),
      getE_swap l 0 (l.length - 1) (l.length - 1) (by omega) (by omega), if_pos rfl]
  have hsk : ∀ k, k ≠ 0 → k ≠ l.length - 1 →
      getE (swap l 0 (l.length - 1)) k = getE l k := by
    intro k h1 h2
    rw [getE_swap l 0 (l.length - 1) k (by omega) (by omega), if_neg h2, if_neg h1]
  have hinv : DownInv (swap l 0 (l.length - 1)) 0 (l.length - 1) := by
    refine ⟨by omega, ?_, fun hpos => absurd hpos (by omega)⟩
    intro c hc hpos hpar
    rw [hsk c (by omega) (by omega), hsk ((c-1)/2) hpar (by omega)]
    exact h c (by omega) hpos
  have hreg := down_heapRegion _ 0 (l.length - 1) hinv
  have hrlen : ((down (swap l 0 (l.length - 1)) 0 (l.length - 1)).take
      (l.length - 1)).length = l.length - 1 := by
    rw [List.length_take]
    omega
  refine ⟨_, ?_, ?_, hrlen, ?_⟩
  · rw [heapPop, if_neg (by omega), hval]
  · intro c hc hpos
    rw [hrlen] at hc
    rw [getE_take _ _ _ hc, getE_take _ _ _ (by omega)]
    exact hreg c hc hpos
  · have hdecomp : (down (swap l 0 (l.length - 1)) 0 (l.length - 1)).take (l.length - 1)
        ++ [getE l 0] = down (swap l 0 (l.length - 1)) 0 (l.length - 1) := by
      have hm : l.length - 1 < (down (swap l 0 (l.length - 1)) 0 (l.length - 1)).length := by
        omega
      have hdrop : (down (swap l 0 (l.length - 1)) 0 (l.length - 1)).drop (l.length - 1) =
          [getE l 0] := by
        rw [List.drop_eq_getElem_cons hm, List.drop_eq_nil_of_le (by omega), ← hval,
          getE, List.getD_eq_getElem _ 0 hm]
      rw [← hdrop, List.take_append_drop]
    have hperm2 : (down (swap l 0 (l.length - 1)) 0 (l.length - 1)).Perm l := by
      rw [List.perm_iff_count]
      intro y
      rw [count_down _ 0 (l.length - 1) (by omega) y,
        count_swap l 0 (l.length - 1) (by omega) (by omega) y]
    have h3 : ((down (swap l 0 (l.length - 1)) 0 (l.length - 1)).take (l.length - 1)
        ++ [getE l 0]).Perm l := by
      rw [hdecomp]
      exact hperm2
    exact (List.perm_append_singleton (getE l 0) _).symm.trans h3

theorem replaceMin_spec (l : List Int) (v : Int) (h : IsHeap l) (hne : l ≠ []) :
    ∃ l2, replaceMin l v = some l2 ∧ IsHeap l2 ∧ l2.length = l.length ∧
      (l2 : Multiset Int) = v ::ₘ ((l : Multiset Int).erase (getE l 0)) := by
  obtain ⟨rest, hpop, hrh, hrlen, hperm⟩ := heapPop_spec l h hne
  have hlen : 0 < l.length := List.length_pos.mpr hne
  refine ⟨heapPush rest v, ?_, isHeap_heapPush rest v hrh, ?_, ?_⟩
  · rw [replaceMin, hpop]
  · rw [length_heapPush, hrlen]
    omega
  · have h1 : (heapPush rest v : Multiset Int) = (v :: rest : List Int) :=
      Multiset.coe_eq_coe.mpr (perm_heapPush rest v)
    have h2 : (l : Multiset Int) = ((getE l 0 :: rest : List Int) : Multiset Int) :=
      (Multiset.coe_eq_coe.mpr hperm).symm
    rw [h1, h2, ← Multiset.cons_coe, ← Multiset.cons_coe, Multiset.erase_cons_head]

theorem takeAux_nil (n : Nat) : takeAux n [] = [] := by
  cases n with
  | zero => rfl
  | succ n => simp [takeAux, heapPop]

theorem takeAux_spec (n : Nat) :
    ∀ l : List Int, IsHeap l → l.length ≤ n →
      (takeAux n l).Perm l ∧ List.Sorted (· ≤ ·) (takeAux n l) := by
  induction n with
  | zero =>
    intro l h hlen
    have : l = [] := List.eq_nil_of_length_eq_zero (by omega)
    rw [this, takeAux_nil]
    exact ⟨List.Perm.refl _, List.sorted_nil⟩
  | succ n ih =>
    intro l h hlen
    by_cases hne : l = []
    · rw [hne, takeAux_nil]
      exact ⟨List.Perm.refl _, List.sorted_nil⟩
    · obtain ⟨rest, hpop, hrh, hrlen, hperm⟩ := heapPop_spec l h hne
      have hstep : takeAux (n+1) l = getE l 0 :: takeAux n rest := by
        simp only [takeAux, hpop]
      obtain ⟨ihp, ihs⟩ := ih rest hrh (by omega)
      constructor
      · rw [hstep]
        exact (ihp.cons (getE l 0)).trans hperm
      · rw [hstep, List.sorted_cons]
        refine ⟨?_, ihs⟩
        intro b hb
        have hbr : b ∈ rest := (ihp.mem_iff).mp hb
        have hbl : b ∈ l := hperm.subset (List.mem_cons_of_mem _ hbr)
        exact root_min_mem l h b hbl

theorem takeTopN_eq_takeAux (l : List Int) (n : Nat) : takeTopN l n = takeAux n l := by
  unfold takeTopN
  split
  · next hl =>
    rw [List.eq_nil_of_length_eq_zero hl, takeAux_nil]
  · rfl

theorem takeTopN_spec (l : List Int) (n : Nat) (h : IsHeap l) (hlen : l.length ≤ n) :
    (takeTopN l n).Perm l ∧ List.Sorted (· ≤ ·) (takeTopN l n) := by
  rw [takeTopN_eq_takeAux]
  exact takeAux_spec n l h hlen

/-! Invariant of the scanning loop of `buildHeap`: the heap always holds
exactly the `min n (number seen)` largest admitted values. -/

/-- The selector state `hp` is a top-`n` selection of the admitted value
sequence `vals`: it is a well-formed heap, a sub-multiset of `vals` of
size `min n vals.length`, and every value of `vals` left out of `hp` is
at most every retained value. -/
def TopSel (n : Nat) (vals : List Int) (hp : List Int) : Prop :=
  IsHeap hp ∧ hp.length = min n vals.length ∧
  (hp : Multiset Int) ≤ (vals : Multiset Int) ∧
  (∀ x ∈ ((vals : Multiset Int) - (hp : Multiset Int)), ∀ y ∈ hp, x ≤ y) ∧
  (2^63 ≤ n → vals = [])

theorem count_append_singleton (l : List Int) (v x : Int) :
    List.count x (l ++ [v]) = List.count x l + (if x = v then 1 else 0) := by
  rw [List.count_append]
  by_cases h : x = v
  · simp [h]
  · simp [List.count_cons, List.count_nil, h, fun hvx : v = x => h hvx.symm]

theorem topSel_nil (n : Nat) : TopSel n [] [] := by
  refine ⟨?_, by simp, le_refl _, ?_, fun _ => rfl⟩
  · intro c hc
    simp at hc
  · intro x hx
    simp at hx

theorem offer_topSel_keep (n : Nat) (vals hp hp2 : List Int) (v : Int)
    (hh : IsHeap hp) (hlen : hp.length = min n vals.length)
    (hle : (hp : Multiset Int) ≤ (vals : Multiset Int))
    (hdom : ∀ x ∈ ((vals : Multiset Int) - (hp : Multiset Int)), ∀ y ∈ hp, x ≤ y)
    (hn63 : n < 2^63) (h1 : ¬hp.length < n) (h3 : v < getE hp 0)
    (hof : some hp = some hp2) : TopSel n (vals ++ [v]) hp2 := by
  have hcard : Multiset.card (hp : Multiset Int) = hp.length := Multiset.coe_card hp
  have hcval : Multiset.card (vals : Multiset Int) = vals.length := Multiset.coe_card vals
  have hcle := Multiset.card_le_card hle
  have hp2eq : hp2 = hp := (Option.some_inj.mp hof).symm
  have hmin := root_min_mem hp hh
  refine ⟨by rw [hp2eq]; exact hh, ?_, ?_, ?_, fun hge => absurd hge (not_le.mpr hn63)⟩
  · rw [hp2eq]
    simp only [List.length_append, List.length_cons, List.length_nil]
    omega
  · rw [hp2eq, Multiset.le_iff_count]
    intro a
    rw [Multiset.coe_count, Multiset.coe_count, count_append_singleton]
    have := Multiset.le_iff_count.mp hle a
    rw [Multiset.coe_count, Multiset.coe_count] at this
    omega
  · intro x hx y hy
    rw [hp2eq] at hy
    rw [← Multiset.count_pos, Multiset.count_sub, hp2eq, Multiset.coe_count,
      Multiset.coe_count, count_append_singleton] at hx
    by_cases hxv : x = v
    · exact le_trans (le_of_lt (by rw [hxv]; exact h3)) (hmin y hy)
    · have hx2 : List.count x vals > List.count x hp := by
        rw [if_neg hxv] at hx
        omega
      refine hdom x ?_ y hy
      rw [← Multiset.count_pos, Multiset.count_sub, Multiset.coe_count,
        Multiset.coe_count]
      omega

theorem offer_topSel_replace (n : Nat) (vals hp hp2 : List Int) (v : Int)
    (hh : IsHeap hp) (hlen : hp.length = min n vals.length)
    (hle : (hp : Multiset Int) ≤ (vals : Multiset Int))
    (hdom : ∀ x ∈ ((vals : Multiset Int) - (hp : Multiset Int)), ∀ y ∈ hp, x ≤ y)
    (hn63 : n < 2^63) (h1 : ¬hp.length < n) (h2 : ¬hp.length = 0) (h3 : ¬v < getE hp 0)
    (hof : replaceMin hp v = some hp2) : TopSel n (vals ++ [v]) hp2 := by
  have hcard : Multiset.card (hp : Multiset Int) = hp.length := Multiset.coe_card hp
  have hcval : Multiset.card (vals : Multiset Int) = vals.length := Multiset.coe_card vals
  have hcle := Multiset.card_le_card hle
  have hne : hp ≠ [] := by
    intro hnil
    rw [hnil] at h2
    exact h2 rfl
  have hvge : getE hp 0 ≤ v := Int.not_lt.mp h3
  have hmmem : getE hp 0 ∈ hp := by
    rw [getE, List.getD_eq_getElem hp 0 (by omega)]
    exact List.getElem_mem (by omega)
  have hmin := root_min_mem hp hh
  obtain ⟨l2, hrm, hh2, hlen2, hms⟩ := replaceMin_spec hp v hh hne
  rw [hrm] at hof
  have hp2eq : hp2 = l2 := (Option.some_inj.mp hof).symm
  have hcnt2 : ∀ x, Multiset.count x (hp2 : Multiset Int) =
      List.count x hp - (if x = getE hp 0 then 1 else 0) + (if x = v then 1 else 0) := by
    intro x
    rw [hp2eq, hms, Multiset.count_cons]
    by_cases hxm : x = getE hp 0
    · rw [hxm, Multiset.count_erase_self, Multiset.coe_count, if_pos rfl]
    · rw [Multiset.count_erase_of_ne hxm, Multiset.coe_count, if_neg hxm]
      omega
  have hcmem : 1 ≤ List.count (getE hp 0) hp := List.count_pos_iff.mpr hmmem
  have hlev : ∀ a, List.count a hp ≤ List.count a vals := by
    intro a
    have := Multiset.le_iff_count.mp hle a
    rw [Multiset.coe_count, Multiset.coe_count] at this
    exact this
  refine ⟨by rw [hp2eq]; exact hh2, ?_, ?_, ?_, fun hge => absurd hge (not_le.mpr hn63)⟩
  · rw [hp2eq, hlen2]
    simp only [List.length_append, List.length_cons, List.length_nil]
    omega
  · rw [Multiset.le_iff_count]
    intro a
    rw [hcnt2 a, Multiset.coe_count, count_append_singleton]
    have := hlev a
    omega
  · intro x hx y hy
    have hy2 : 0 < List.count y hp - (if y = getE hp 0 then 1 else 0) +
        (if y = v then 1 else 0) := by
      have hc := List.count_pos_iff.mpr hy
      have hc2 : 0 < Multiset.count y (hp2 : Multiset Int) := by
        rw [Multiset.coe_count]
        exact hc
      rw [hcnt2 y] at hc2
      exact hc2
    rw [← Multiset.count_pos, Multiset.count_sub, Multiset.coe_count,
      count_append_singleton, hcnt2 x] at hx
    by_cases hxm : x = getE hp 0
    · by_cases hyv : y = v
      · rw [hxm, hyv]
        exact hvge
      · have hymem : y ∈ hp := by
          rw [if_neg hyv] at hy2
          exact List.count_pos_iff.mp (by omega)
        rw [hxm]
        exact hmin y hymem
    · have hx2 : List.count x vals > List.count x hp := by
        have := hlev x
        by_cases hxv : x = v
        · rw [if_neg hxm, if_pos hxv] at hx
          omega
        · rw [if_neg hxm, if_neg hxv] at hx
          omega
      have hxdom : ∀ z ∈ hp, x ≤ z := by
        intro z hz
        refine hdom x ?_ z hz
        rw [← Multiset.count_pos, Multiset.count_sub, Multiset.coe_count,
          Multiset.coe_count]
        omega
      by_cases hyv : y = v
      · rw [hyv]
        exact le_trans (hxdom (getE hp 0) hmmem) hvge
      · have hymem : y ∈ hp := by
          rw [if_neg hyv] at hy2
          exact List.count_pos_iff.mp (by omega)
        exact hxdom y hymem

theorem offer_topSel (n : Nat) (vals hp hp2 : List Int) (v : Int)
    (ht : TopSel n vals hp) (hof : offer n hp v = some hp2) :
    TopSel n (vals ++ [v]) hp2 := by
  obtain ⟨hh, hlen, hle, hdom, hbig⟩ := ht
  have hcard : Multiset.card (hp : Multiset Int) = hp.length := Multiset.coe_card hp
  have hcval : Multiset.card (vals : Multiset Int) = vals.length := Multiset.coe_card vals
  rw [offer] at hof
  by_cases hfill : (hp.length : Int) < intOfUint n
  · rw [if_pos hfill] at hof
    obtain ⟨hn63, h1⟩ := (fill_iff n hp.length).mp hfill
    have hval_lt : vals.length < n := by omega
    have heq : (hp : Multiset Int) = (vals : Multiset Int) :=
      Multiset.eq_of_le_of_card_le hle (by omega)
    have hp2eq : hp2 = heapPush hp v := (Option.some_inj.mp hof).symm
    have hms : (hp2 : Multiset Int) = ((v :: vals : List Int) : Multiset Int) := by
      rw [hp2eq, Multiset.coe_eq_coe]
      exact (perm_heapPush hp v).trans
        (by rw [List.perm_iff_count]; intro y; rw [List.count_cons, List.count_cons,
          List.perm_iff_count.mp (Multiset.coe_eq_coe.mp heq) y])
    have hms2 : (hp2 : Multiset Int) = ((vals ++ [v] : List Int) : Multiset Int) := by
      rw [hms, Multiset.coe_eq_coe]
      exact (List.perm_append_singleton v vals).symm
    refine ⟨by rw [hp2eq]; exact isHeap_heapPush hp v hh, ?_, le_of_eq hms2, ?_, ?_⟩
    · rw [hp2eq, length_heapPush]
      simp only [List.length_append, List.length_cons, List.length_nil]
      omega
    · intro x hx
      rw [← Multiset.count_pos, Multiset.count_sub, hms2] at hx
      omega
    · exact fun hge => absurd hge (not_le.mpr hn63)
  · rw [if_neg hfill] at hof
    by_cases h2 : hp.length = 0
    · rw [if_pos h2] at hof
      exact absurd hof (by simp)
    · rw [if_neg h2] at hof
      have hn63 : n < 2^63 := by
        by_contra hge
        push_neg at hge
        rw [hbig hge] at hlen
        simp only [List.length_nil, Nat.min_zero] at hlen
        exact h2 hlen
      have h1 : ¬ hp.length < n := fun hlt =>
        hfill ((fill_iff n hp.length).mpr ⟨hn63, hlt⟩)
      by_cases h3 : v < getE hp 0
      · rw [if_pos h3] at hof
        exact offer_topSel_keep n vals hp hp2 v hh hlen hle hdom hn63 h1 h3 hof
      · rw [if_neg h3] at hof
        exact offer_topSel_replace n vals hp hp2 v hh hlen hle hdom hn63 h1 h2 h3 hof

/-! Reduction of `buildHeap` to a fold of `offer` over the parsed values. -/

theorem buildHeap_fold (n : Nat) (lines : List String) (hp : List Int) :
    List.foldlM (fun hp line =>
      match atoi line with
      | none => some hp
      | some v => offer n hp v) hp lines
      = List.foldlM (offer n) hp (lines.filterMap atoi) := by
  induction lines generalizing hp with
  | nil => rfl
  | cons s rest ih =>
    rw [List.foldlM_cons]
    cases hs : atoi s with
    | none =>
      rw [List.filterMap_cons_none hs]
      exact ih hp
    | some v =>
      rw [List.filterMap_cons_some hs, List.foldlM_cons]
      change (offer n hp v >>= _) = (offer n hp v >>= _)
      cases ho : offer n hp v with
      | none => rfl
      | some hmid => exact ih hmid

theorem buildHeap_eq (n : Nat) (lines : List String) :
    buildHeap n lines = List.foldlM (offer n) [] (lines.filterMap atoi) := by
  rw [buildHeap, show heapInit [] = [] from rfl]
  exact buildHeap_fold n lines []

theorem offerAll_topSel (n : Nat) :
    ∀ (vs : List Int) (acc hp hp2 : List Int), TopSel n acc hp →
      List.foldlM (offer n) hp vs = some hp2 → TopSel n (acc ++ vs) hp2 := by
  intro vs
  induction vs with
  | nil =>
    intro acc hp hp2 ht hf
    rw [List.foldlM_nil] at hf
    have : hp = hp2 := Option.some_inj.mp hf
    rw [List.append_nil, ← this]
    exact ht
  | cons v rest ih =>
    intro acc hp hp2 ht hf
    rw [List.foldlM_cons] at hf
    cases ho : offer n hp v with
    | none =>
      rw [ho] at hf
      exact absurd hf (by simp)
    | some hmid =>
      rw [ho] at hf
      have hf2 : List.foldlM (offer n) hmid rest = some hp2 := hf
      have ht2 := offer_topSel n acc hp hmid v ht ho
      have := ih (acc ++ [v]) hmid hp2 ht2 hf2
      rw [List.append_assoc] at this
      exact this

theorem buildHeap_topSel (n : Nat) (lines : List String) (hp : List Int)
    (h : buildHeap n lines = some hp) : TopSel n (lines.filterMap atoi) hp := by
  rw [buildHeap_eq] at h
  have := offerAll_topSel n (lines.filterMap atoi) [] [] hp (topSel_nil n) h
  rw [List.nil_append] at this
  exact this

/-- Functional characterisation: two multisets satisfying the top-`n`
selection conditions over the same values are equal, so `TopSel` pins the
retained multiset uniquely. -/
theorem topSel_multiset_unique (vals : Multiset Int) (s t : Multiset Int)
    (hs : s ≤ vals) (ht : t ≤ vals) (hcard : Multiset.card s = Multiset.card t)
    (hds : ∀ x ∈ vals - s, ∀ y ∈ s, x ≤ y) (hdt : ∀ x ∈ vals - t, ∀ y ∈ t, x ≤ y) :
    s = t := by
  by_contra hne
  have hcnt : ∃ a, Multiset.count a s ≠ Multiset.count a t := by
    by_contra hall
    push_neg at hall
    exact hne (Multiset.ext.mpr hall)
  obtain ⟨a, ha⟩ := hcnt
  rcases Nat.lt_or_ge (Multiset.count a t) (Multiset.count a s) with hlt | hge
  · -- some copy of `a` is in `s` but rejected by `t`
    have hat : a ∈ vals - t := by
      rw [← Multiset.count_pos, Multiset.count_sub]
      have := Multiset.le_iff_count.mp hs a
      omega
    have has : a ∈ s := by
      rw [← Multiset.count_pos]
      omega
    -- cardinalities force some `b` with more copies in `t` than in `s`
    have hb : ∃ b, Multiset.count b s < Multiset.count b t := by
      by_contra hall
      push_neg at hall
      have hlecnt : t ≤ s := Multiset.le_iff_count.mpr hall
      have := Multiset.eq_of_le_of_card_le hlecnt (by omega)
      rw [this] at ha
      exact ha rfl
    obtain ⟨b, hbc⟩ := hb
    have hbs : b ∈ vals - s := by
      rw [← Multiset.count_pos, Multiset.count_sub]
      have := Multiset.le_iff_count.mp ht b
      omega
    have hbt : b ∈ t := by
      rw [← Multiset.count_pos]
      omega
    have hab : a ≤ b := hdt a hat b hbt
    have hba : b ≤ a := hds b hbs a has
    have : a = b := le_antisymm hab hba
    rw [this] at hlt
    omega
  · have hlt2 : Multiset.count a s < Multiset.count a t := by omega
    have hat : a ∈ vals - s := by
      rw [← Multiset.count_pos, Multiset.count_sub]
      have := Multiset.le_iff_count.mp ht a
      omega
    have has : a ∈ t := by
      rw [← Multiset.count_pos]
      omega
    have hb : ∃ b, Multiset.count b t < Multiset.count b s := by
      by_contra hall
      push_neg at hall
      have hlecnt : s ≤ t := Multiset.le_iff_count.mpr hall
      have := Multiset.eq_of_le_of_card_le hlecnt (by omega)
      rw [this] at ha
      exact ha rfl
    obtain ⟨b, hbc⟩ := hb
    have hbs : b ∈ vals - t := by
      rw [← Multiset.count_pos, Multiset.count_sub]
      have := Multiset.le_iff_count.mp hs b
      omega
    have hbt : b ∈ s := by
      rw [← Multiset.count_pos]
      omega
    have hab : a ≤ b := hds a hat b hbt
    have hba : b ≤ a := hdt b hbs a has
    have : a = b := le_antisymm hab hba
    rw [this] at hlt2
    omega

/-! Output formatting: `printNumbers` against the spec's description of
the printed line. -/

/-- Space-separated join with no trailing or leading separator, following
the spec's words: "space-separated on one line ... no trailing space
after the last number".  Used as the reference for the printed line. -/
def joinSpaceSep : List String → String
  | [] => ""
  | [x] => x
  | x :: y :: xs => x ++ " " ++ joinSpaceSep (y :: xs)

theorem printFrom_append (l : List Int) (a : Int) (k : Nat) (hk : k < l.length) :
    printFrom (l ++ [a]) k = printFrom l k := by
  induction k with
  | zero =>
    simp only [printFrom]
    rw [getE_append_lt l [a] 0 (by omega)]
  | succ k ih =>
    simp only [printFrom]
    rw [getE_append_lt l [a] (k+1) hk, ih (by omega)]

theorem printFrom_spec (l : List Int) :
    l ≠ [] → printFrom l (l.length - 1) = joinSpaceSep ((l.reverse).map toString) := by
  induction l using List.reverseRecOn with
  | nil => intro h; exact absurd rfl h
  | append_singleton l a ih =>
    intro _
    by_cases hl : l = []
    · rw [hl]
      rfl
    · obtain ⟨m, hm⟩ : ∃ m, l.length = m + 1 :=
        ⟨l.length - 1, by have := List.length_pos.mpr hl; omega⟩
      have hlen2 : (l ++ [a]).length - 1 = l.length := by
        simp only [List.length_append, List.length_cons, List.length_nil]
        omega
      rw [hlen2, hm]
      simp only [printFrom]
      rw [← hm, getE_append_self l a, printFrom_append l a m (by omega)]
      have hrec := ih hl
      rw [hm, Nat.add_sub_cancel] at hrec
      rw [List.reverse_append]
      simp only [List.reverse_cons, List.reverse_nil, List.nil_append, List.map_cons,
        List.cons_append]
      cases hrev : l.reverse.map toString with
      | nil =>
        exfalso
        have : l.reverse = [] := List.map_eq_nil_iff.mp hrev
        exact hl (by simpa using congrArg List.reverse this)
      | cons z zs =>
        rw [hrec, hrev]
        rfl

theorem printNumbers_spec (numbers : List Int) :
    printNumbers numbers = joinSpaceSep ((numbers.reverse).map toString) ++ "\n" := by
  by_cases h : numbers = []
  · rw [h]
    rfl
  · rw [printNumbers, if_neg (by
      intro h0
      exact h (List.eq_nil_of_length_eq_zero h0)), printFrom_spec numbers h]

/-! Skipping of lines that fail integer parsing. -/

theorem buildHeap_skip (s : String) (hs : atoi s = none) (n : Nat)
    (pre post : List String) :
    buildHeap n (pre ++ s :: post) = buildHeap n (pre ++ post) := by
  rw [buildHeap_eq, buildHeap_eq, List.filterMap_append, List.filterMap_append,
    List.filterMap_cons_none hs]

theorem runProgram_skip (s : String) (hs : atoi s = none) (n : Nat)
    (pre post : List String) :
    runProgram n (pre ++ s :: post) = runProgram n (pre ++ post) := by
  rw [runProgram, runProgram, buildHeap_skip s hs n pre post]

/-! Success of the scan when the input has fewer values than the capacity. -/

theorem offerAll_fill (n : Nat) (hn : n < 2^63) :
    ∀ (vs hp : List Int), hp.length + vs.length < n →
      ∃ hp2, List.foldlM (offer n) hp vs = some hp2 := by
  intro vs
  induction vs with
  | nil =>
    intro hp h
    exact ⟨hp, rfl⟩
  | cons v rest ih =>
    intro hp h
    simp only [List.length_cons] at h
    have h1 : hp.length < n := by omega
    rw [List.foldlM_cons]
    rw [show offer n hp v = some (heapPush hp v) from by
      rw [offer, if_pos ((fill_iff n hp.length).mpr ⟨hn, h1⟩)]]
    obtain ⟨hp2, hf⟩ := ih (heapPush hp v) (by rw [length_heapPush]; omega)
    exact ⟨hp2, hf⟩

theorem heapPop_length (l : List Int) (p : Int × List Int)
    (h : heapPop l = some p) : p.2.length = l.length - 1 ∧ 0 < l.length := by
  rw [heapPop] at h
  by_cases h0 : l.length = 0
  · rw [if_pos h0] at h
    exact absurd h (by simp)
  · rw [if_neg h0] at h
    have := Option.some_inj.mp h
    rw [← this]
    refine ⟨?_, by omega⟩
    simp only [List.length_take, length_down, length_swap]
    omega

theorem replaceMin_length (hp : List Int) (v : Int) (hp2 : List Int)
    (h : replaceMin hp v = some hp2) : hp2.length = hp.length := by
  rw [replaceMin] at h
  cases hpop : heapPop hp with
  | none =>
    rw [hpop] at h
    exact absurd h (by simp)
  | some p =>
    rw [hpop] at h
    have h2 := Option.some_inj.mp h
    obtain ⟨hl, hpos⟩ := heapPop_length hp p hpop
    rw [← h2, length_heapPush, hl]
    omega

/-! Claim theorems. -/

/-- C1: for every capacity and input line sequence, when `buildHeap`
completes, the retained multiset is a sub-multiset of the valid parsed
integers, of size `min capacity (number of valid integers)`, and every
value not retained is at most every retained value — i.e. the retained
multiset is exactly the `min(N, count)` largest valid integers,
duplicates counted (`topSel_multiset_unique` shows these conditions pin
the multiset uniquely). -/
theorem buildHeap_retains_top_min (n : Nat) (lines : List String) (hp : List Int)
    (h : buildHeap n lines = some hp) :
    (hp : Multiset Int) ≤ ((lines.filterMap atoi : List Int) : Multiset Int) ∧
    hp.length = min n (lines.filterMap atoi).length ∧
    (∀ x ∈ (((lines.filterMap atoi : List Int) : Multiset Int) - (hp : Multiset Int)),
      ∀ y ∈ hp, x ≤ y) := by
  obtain ⟨hh, hlen, hle, hdom, hbig⟩ := buildHeap_topSel n lines hp h
  exact ⟨hle, by omega, hdom⟩

/-- Witness for C1 at capacity 3 and the spec's concrete scenario
`5, 3, 9, 1, 9, 7`, whose retained heap is `[7, 9, 9]`. -/
theorem buildHeap_retains_top_min_witness :
    buildHeap 3 ["5","3","9","1","9","7"] = some [7,9,9] ∧
    (([7,9,9] : List Int) : Multiset Int) ≤
      (((["5","3","9","1","9","7"].filterMap atoi : List Int)) : Multiset Int) ∧
    ([7,9,9] : List Int).length = min 3 (["5","3","9","1","9","7"].filterMap atoi).length ∧
    (∀ x ∈ (((["5","3","9","1","9","7"].filterMap atoi : List Int) : Multiset Int) -
        (([7,9,9] : List Int) : Multiset Int)),
      ∀ y ∈ ([7,9,9] : List Int), x ≤ y) :=
  ⟨rfl, buildHeap_retains_top_min 3 ["5","3","9","1","9","7"] [7,9,9] rfl⟩

/-- C2: with capacity 0 the guarded copy of the program prints an empty
line for every input, but `top_n.go` itself indexes `IntHeap[0]` on an
empty heap as soon as a valid integer line arrives, and the run panics
(`none`); with no valid integer line it still prints the empty line. -/
theorem capacity_zero_behaviour :
    (∀ lines, runProgramGuarded 0 lines = some "\n") ∧
    runProgram 0 ["5"] = none ∧
    runProgram 0 ["abc"] = some "\n" :=
  ⟨fun _ => rfl, rfl, rfl⟩

/-- C3: the selector never holds more than `n` values after any run of
`buildHeap` (every intermediate state is the final state of a prefix of
the input); `ReplaceMin` never changes the size; and once the heap is
full (`¬ size < n`), `offer` never grows it. -/
theorem selector_size_bounded (n : Nat) :
    (∀ (lines : List String) (hp : List Int),
        buildHeap n lines = some hp → hp.length ≤ n) ∧
    (∀ (hp : List Int) (v : Int) (hp2 : List Int),
        replaceMin hp v = some hp2 → hp2.length = hp.length) ∧
    (∀ (hp : List Int) (v : Int) (hp2 : List Int), ¬ hp.length < n →
        offer n hp v = some hp2 → hp2.length = hp.length) := by
  refine ⟨?_, ?_, ?_⟩
  · intro lines hp h
    have := (buildHeap_topSel n lines hp h).2.1
    omega
  · intro hp v hp2 h
    exact replaceMin_length hp v hp2 h
  · intro hp v hp2 h1 hof
    rw [offer] at hof
    rw [if_neg (fun hfill => h1 ((fill_iff n hp.length).mp hfill).2)] at hof
    by_cases h2 : hp.length = 0
    · rw [if_pos h2] at hof
      exact absurd hof (by simp)
    · rw [if_neg h2] at hof
      by_cases h3 : v < getE hp 0
      · rw [if_pos h3] at hof
        rw [← Option.some_inj.mp hof]
      · rw [if_neg h3] at hof
        exact replaceMin_length hp v hp2 hof

/-- Witness for C3: a run at capacity 2 stays within the bound, and a
concrete `ReplaceMin` keeps the size at 3. -/
theorem selector_size_bounded_witness :
    buildHeap 2 ["5","1","7"] = some [5,7] ∧ ([5,7] : List Int).length ≤ 2 ∧
    replaceMin [2,4,6] 5 = some [4,6,5] ∧
    ([4,6,5] : List Int).length = ([2,4,6] : List Int).length :=
  ⟨rfl, (selector_size_bounded 2).1 ["5","1","7"] [5,7] rfl, rfl,
    (selector_size_bounded 2).2.1 [2,4,6] 5 [4,6,5] rfl⟩

/-- C4 (amended): for capacities below `2^63` — exactly those whose
`int(*nFlag)` conversion is nonnegative — an input with fewer valid
integers than the capacity completes the scan, every valid integer is
retained, draining returns all of them, and draining an empty selector
returns the empty sequence.  At flag values `2^63` and above the claim
fails on the code: see `huge_capacity_retains_nothing`. -/
theorem fewer_values_all_retained (n : Nat) (lines : List String)
    (hn : n < 2^63) (hlt : (lines.filterMap atoi).length < n) :
    ∃ hp, buildHeap n lines = some hp ∧
      (hp : Multiset Int) = ((lines.filterMap atoi : List Int) : Multiset Int) ∧
      ((takeTopN hp n : List Int) : Multiset Int) =
        ((lines.filterMap atoi : List Int) : Multiset Int) ∧
      takeTopN ([] : List Int) n = [] := by
  obtain ⟨hp, hbh⟩ := offerAll_fill n hn (lines.filterMap atoi) [] (by simpa using hlt)
  rw [← buildHeap_eq] at hbh
  obtain ⟨hh, hlen, hle, hdom, hbig⟩ := buildHeap_topSel n lines hp hbh
  have hms : (hp : Multiset Int) = ((lines.filterMap atoi : List Int) : Multiset Int) :=
    Multiset.eq_of_le_of_card_le hle
      (by rw [Multiset.coe_card, Multiset.coe_card]; omega)
  refine ⟨hp, hbh, hms, ?_, rfl⟩
  have hperm := (takeTopN_spec hp n hh (by omega)).1
  calc ((takeTopN hp n : List Int) : Multiset Int)
      = (hp : Multiset Int) := Multiset.coe_eq_coe.mpr hperm
    _ = ((lines.filterMap atoi : List Int) : Multiset Int) := hms

/-- Witness for C4 (amended) at capacity 5 with two valid integers and
one malformed line. -/
theorem fewer_values_all_retained_witness :
    5 < 2^63 ∧ (["3","abc","10"].filterMap atoi).length < 5 ∧
    (∃ hp, buildHeap 5 ["3","abc","10"] = some hp ∧
      (hp : Multiset Int) = ((["3","abc","10"].filterMap atoi : List Int) : Multiset Int) ∧
      ((takeTopN hp 5 : List Int) : Multiset Int) =
        ((["3","abc","10"].filterMap atoi : List Int) : Multiset Int) ∧
      takeTopN ([] : List Int) 5 = []) :=
  ⟨by decide, by decide, fewer_values_all_retained 5 ["3","abc","10"] (by decide) (by decide)⟩

/-- C4 counterexample: at flag value `2^63` the converted capacity
`int(*nFlag)` is negative, so with the single valid line `5` — fewer
valid integers than the capacity — `top_n.go` never fills, panics at
`IntHeap[0]` (retaining and printing nothing), and the guarded copy
skips every value through `Minimum()`'s error, retaining nothing and
printing an empty line. -/
theorem huge_capacity_retains_nothing :
    (["5"].filterMap atoi).length < 2^63 ∧
    runProgram (2^63) ["5"] = none ∧
    buildHeapGuarded (2^63) ["5"] = some [] ∧
    runProgramGuarded (2^63) ["5"] = some "\n" :=
  ⟨by decide, rfl, rfl, rfl⟩

/-- C5: on a full selector of positive capacity, `IntHeap[0]` is the
minimum of the retained values; a value strictly below it is discarded
with no state change, and a value at or above it (equality included) is
admitted, replacing that minimum in the retained multiset. -/
theorem offer_full_policy (n : Nat) (hp : List Int) (v : Int)
    (hheap : IsHeap hp) (hfull : hp.length = n) (hpos : 0 < n) :
    (∀ y ∈ hp, getE hp 0 ≤ y) ∧
    (v < getE hp 0 → offer n hp v = some hp) ∧
    (getE hp 0 ≤ v → ∃ hp2, offer n hp v = some hp2 ∧
      (hp2 : Multiset Int) = v ::ₘ ((hp : Multiset Int).erase (getE hp 0))) := by
  have hnf : ¬ ((hp.length : Int) < intOfUint n) := by
    intro hfill
    have := ((fill_iff n hp.length).mp hfill).2
    omega
  refine ⟨root_min_mem hp hheap, ?_, ?_⟩
  · intro hlt
    rw [offer, if_neg hnf, if_neg (by omega), if_pos hlt]
  · intro hge
    have hne : hp ≠ [] := by
      intro h0
      rw [h0] at hfull
      simp only [List.length_nil] at hfull
      omega
    obtain ⟨l2, hrm, _, _, hms⟩ := replaceMin_spec hp v hheap hne
    refine ⟨l2, ?_, hms⟩
    rw [offer, if_neg hnf, if_neg (by omega), if_neg (Int.not_lt.mpr hge)]
    exact hrm

/-- Witness for C5 on the full heap `[1, 5, 3]` at capacity 3 with the
offered value 1 equal to the minimum. -/
theorem offer_full_policy_witness :
    IsHeap [(1:Int),5,3] ∧ ([(1:Int),5,3] : List Int).length = 3 ∧ 0 < 3 ∧
    ((∀ y ∈ [(1:Int),5,3], getE [(1:Int),5,3] 0 ≤ y) ∧
     ((1:Int) < getE [(1:Int),5,3] 0 → offer 3 [(1:Int),5,3] 1 = some [(1:Int),5,3]) ∧
     (getE [(1:Int),5,3] 0 ≤ (1:Int) → ∃ hp2, offer 3 [(1:Int),5,3] 1 = some hp2 ∧
       (hp2 : Multiset Int) = (1:Int) ::ₘ (([(1:Int),5,3] : List Int) : Multiset Int).erase
         (getE [(1:Int),5,3] 0))) :=
  ⟨by decide, by decide, by decide,
    offer_full_policy 3 [(1:Int),5,3] 1 (by decide) (by decide) (by decide)⟩

/-- C6 counterexample: with duplicates the drained sequence is not
STRICTLY ascending — capacity 3 on input `9, 9, 7` drains `[7, 9, 9]`,
which is not sorted under `<`, while the program prints `9 9 7`. -/
theorem drain_not_strictly_ascending :
    buildHeap 3 ["9","9","7"] = some [7,9,9] ∧
    takeTopN [7,9,9] 3 = [7,9,9] ∧
    ¬ List.Sorted (· < ·) [(7:Int),9,9] ∧
    runProgram 3 ["9","9","7"] = some "9 9 7\n" :=
  ⟨rfl, rfl, by decide, rfl⟩

/-- C6 (amended): the drained sequence is ascending with ties adjacent
(sorted under `≤`), its reverse is descending (sorted under `≥`), and
the printed line is exactly that reversed sequence joined with single
spaces (no trailing whitespace) plus a terminating newline; an empty
result prints an empty line. -/
theorem drain_sorted_print_spec (n : Nat) (lines : List String) (hp : List Int)
    (h : buildHeap n lines = some hp) :
    List.Sorted (· ≤ ·) (takeTopN hp n) ∧
    List.Sorted (· ≥ ·) ((takeTopN hp n).reverse) ∧
    printNumbers (takeTopN hp n) =
      joinSpaceSep (((takeTopN hp n).reverse).map toString) ++ "\n" ∧
    printNumbers [] = "\n" := by
  obtain ⟨hh, hlen, _, _, _⟩ := buildHeap_topSel n lines hp h
  have hsp := takeTopN_spec hp n hh (by omega)
  exact ⟨hsp.2, List.pairwise_reverse.mpr hsp.2, printNumbers_spec _, rfl⟩

/-- Witness for C6 (amended) on the spec's concrete scenario at
capacity 3. -/
theorem drain_sorted_print_spec_witness :
    buildHeap 3 ["5","3","9","1","9","7"] = some [7,9,9] ∧
    (List.Sorted (· ≤ ·) (takeTopN [7,9,9] 3) ∧
     List.Sorted (· ≥ ·) ((takeTopN [7,9,9] 3).reverse) ∧
     printNumbers (takeTopN [7,9,9] 3) =
       joinSpaceSep (((takeTopN [7,9,9] 3).reverse).map toString) ++ "\n" ∧
     printNumbers [] = "\n") :=
  ⟨rfl, drain_sorted_print_spec 3 ["5","3","9","1","9","7"] [7,9,9] rfl⟩

/-- C7: on a nonempty well-formed heap, `ReplaceMin value` succeeds and
the resulting retained multiset is the old one with the minimum
(`IntHeap[0]`, which dominates no retained value) removed exactly once
and `value` added exactly once — the multiset produced by extract-min
followed by an insert. -/
theorem replaceMin_extract_insert (hp : List Int) (v : Int)
    (hheap : IsHeap hp) (hne : hp ≠ []) :
    ∃ hp2, replaceMin hp v = some hp2 ∧
      (hp2 : Multiset Int) = v ::ₘ ((hp : Multiset Int).erase (getE hp 0)) ∧
      getE hp 0 ∈ hp ∧ (∀ y ∈ hp, getE hp 0 ≤ y) := by
  obtain ⟨l2, hrm, _, _, hms⟩ := replaceMin_spec hp v hheap hne
  have hpos : 0 < hp.length := List.length_pos.mpr hne
  refine ⟨l2, hrm, hms, ?_, root_min_mem hp hheap⟩
  rw [getE, List.getD_eq_getElem hp 0 hpos]
  exact List.getElem_mem hpos

/-- Witness for C7 on the heap `[2, 4, 6]` with value 5. -/
theorem replaceMin_extract_insert_witness :
    IsHeap [(2:Int),4,6] ∧ ([(2:Int),4,6] : List Int) ≠ [] ∧
    (∃ hp2, replaceMin [(2:Int),4,6] 5 = some hp2 ∧
      (hp2 : Multiset Int) = (5:Int) ::ₘ (([(2:Int),4,6] : List Int) : Multiset Int).erase
        (getE [(2:Int),4,6] 0) ∧
      getE [(2:Int),4,6] 0 ∈ [(2:Int),4,6] ∧
      (∀ y ∈ [(2:Int),4,6], getE [(2:Int),4,6] 0 ≤ y)) :=
  ⟨by decide, by decide, replaceMin_extract_insert [(2:Int),4,6] 5 (by decide) (by decide)⟩

/-- C8: the line `"abc"` does not parse as an integer, and splicing it
anywhere into the input changes neither the heap built by `buildHeap`
nor the program's entire observable run (output and crash status), so it
is never counted toward the capacity and never surfaces as an error. -/
theorem malformed_line_skipped :
    atoi "abc" = none ∧
    ∀ (n : Nat) (pre post : List String),
      buildHeap n (pre ++ "abc" :: post) = buildHeap n (pre ++ post) ∧
      runProgram n (pre ++ "abc" :: post) = runProgram n (pre ++ post) :=
  ⟨rfl, fun n pre post =>
    ⟨buildHeap_skip "abc" rfl n pre post, runProgram_skip "abc" rfl n pre post⟩⟩

/-- C9: the program is a pure function of the capacity flag and the
input lines — two runs on the same arguments produce the same result. -/
theorem program_deterministic (n : Nat) (lines : List String) (o1 o2 : Option String)
    (h1 : runProgram n lines = o1) (h2 : runProgram n lines = o2) : o1 = o2 := by
  rw [← h1, ← h2]

/-- Witness for C9 on the spec's concrete scenario `10, 20, 30` at
capacity 5. -/
theorem program_deterministic_witness :
    runProgram 5 ["10","20","30"] = some "30 20 10\n" :=
  program_deterministic 5 ["10","20","30"] (runProgram 5 ["10","20","30"])
    (some "30 20 10\n") rfl rfl

/-- C10: a well-formed decimal line whose value lies outside the signed
64-bit range fails `Atoi` exactly like a malformed line: it is skipped,
never wrapped or clamped, and splicing it into the input changes neither
the retained heap nor the program's output. -/
theorem out_of_range_line_skipped (s : String) (v : Int)
    (hv : parseSigned s = some v) (hout : v < -(2^63) ∨ 2^63 - 1 < v) :
    atoi s = none ∧
    ∀ (n : Nat) (pre post : List String),
      buildHeap n (pre ++ s :: post) = buildHeap n (pre ++ post) ∧
      runProgram n (pre ++ s :: post) = runProgram n (pre ++ post) := by
  have ha : atoi s = none := by
    have hnot : ¬(-(2^63) ≤ v ∧ v ≤ 2^63 - 1) := by
      generalize hc : (2:Int)^63 = c at hout ⊢
      omega
    simp only [atoi, hv, if_neg hnot]
  exact ⟨ha, fun n pre post =>
    ⟨buildHeap_skip s ha n pre post, runProgram_skip s ha n pre post⟩⟩

/-- Witness for C10 on the line `9223372036854775808`, one past the
maximum signed 64-bit integer. -/
theorem out_of_range_line_skipped_witness :
    parseSigned "9223372036854775808" = some 9223372036854775808 ∧
    ((2:Int)^63 - 1 < 9223372036854775808) ∧
    atoi "9223372036854775808" = none ∧
    buildHeap 2 (["1"] ++ "9223372036854775808" :: ["3"]) = buildHeap 2 (["1"] ++ ["3"]) :=
  ⟨rfl, by decide,
    (out_of_range_line_skipped "9223372036854775808" 9223372036854775808 rfl
      (Or.inr (by decide))).1,
    ((out_of_range_line_skipped "9223372036854775808" 9223372036854775808 rfl
      (Or.inr (by decide))).2 2 ["1"] ["3"]).1⟩

end TopN
